import Mathlib

/-! Record store service (`http_server/server.go`).

A shallow embedding of the in-memory record store and of its request handler.
Every operation takes the server state and returns the state it leaves behind.
Requests are served one at a time, so that the read/write lock `mux` has no
effect, except in the part on concurrent creates, where the two atomic steps
of `add` are interleaved.

* `uint32` keys and the `sync2.AtomicUint32` counter are natural numbers; the
  counter's `Add(1)` is addition modulo `2 ^ 32`.
* `map[uint32]string` is an association list with pairwise distinct keys
  (`AList`).  Go leaves the iteration order of a map unspecified; the order of
  the association list stands for one such order, and every property of
  `get` below is stated up to that order.
* `error` is `Option String`: `none` is `nil`, `some msg` is an error whose
  `Error()` text is `msg`.
* `json.Marshal` is a parameter of `Handle`; a response is recorded as the
  call that sends it.
-/

namespace http_server

/-- Stored items: `type ResultItem struct { Key uint32; Value string }`. -/
structure ResultItem where
  Key : Nat
  Value : String
deriving DecidableEq, Repr

/-- The zero value `ResultItem{}`. -/
def ResultItem.zero : ResultItem := ⟨0, ""⟩

/-- The map type of the field `strs`. -/
abbrev StrMap : Type := AList (fun _ : Nat => String)

/-- Service state: the fields `id` and `strs` of `type Server struct`
(`logger`, `srvMux` hold no store data; `mux` is the lock). -/
structure Server where
  id : Nat
  strs : StrMap
deriving DecidableEq

/-- Service factory `New`: counter at its zero value, empty map. -/
def New : Server := ⟨0, ∅⟩

/-- What `json.NewDecoder(req.Body).Decode(&item)` makes of a request body:
either it fails with an error text, or it fills `item` (a field that the
body leaves out keeps its zero value).  A decoded key is a `uint32`, hence
below `2 ^ 32`; nothing proved below depends on that bound. -/
inductive Body where
  | malformed (err : String)
  | object (Key : Nat) (Value : String)
deriving DecidableEq, Repr

/-- The parts of `*http.Request` the handler reads. -/
structure Request where
  Method : String
  Body : Body
deriving DecidableEq, Repr

/-- Counter increment `s.id.Add(1)` on a `uint32`: the new value. -/
def atomicAdd1 (id : Nat) : Nat := (id + 1) % 2 ^ 32

/-- Text of `fmt.Sprintf("item with id %d not found", key)`. -/
def notFound (key : Nat) : String := "item with id " ++ toString key ++ " not found"

/-- Method `Server.get`: one `ResultItem` per map entry, in iteration order. -/
def Server.get (s : Server) : List ResultItem :=
  s.strs.entries.map (fun e => { Key := e.1, Value := e.2 })

/-- Method `Server.decode`: the decoded item, or `ResultItem{}` and the error. -/
def Server.decode (req : Request) : ResultItem × Option String :=
  match req.Body with
  | .malformed err => (ResultItem.zero, some err)
  | .object k v => ({ Key := k, Value := v }, none)

/-- Method `Server.add`: resulting state, returned item, returned error. -/
def Server.add (s : Server) (req : Request) : Server × ResultItem × Option String :=
  match Server.decode req with
  | (item, some err) => (s, item, some err)
  | (item, none) =>
    let id := atomicAdd1 s.id
    ({ id := id, strs := s.strs.insert id item.Value }, { item with Key := id }, none)

/-- Method `Server.update`: resulting state, returned item, returned error. -/
def Server.update (s : Server) (req : Request) : Server × ResultItem × Option String :=
  match Server.decode req with
  | (item, some err) => (s, item, some err)
  | (item, none) =>
    if item.Key ∈ s.strs then
      ({ s with strs := s.strs.insert item.Key item.Value }, item, none)
    else
      (s, ResultItem.zero, some (notFound item.Key))

/-- Method `Server.delete`: resulting state, returned error. -/
def Server.delete (s : Server) (req : Request) : Server × Option String :=
  match Server.decode req with
  | (_, some err) => (s, some err)
  | (item, none) =>
    if item.Key ∈ s.strs then
      ({ s with strs := s.strs.erase item.Key }, none)
    else
      (s, some (notFound item.Key))

/-- Values held by the variable `result interface{}` of `Handle`. -/
inductive Result where
  | nil
  | items (l : List ResultItem)
  | item (i : ResultItem)
  | str (s : String)
deriving DecidableEq, Repr

/-- The method switch of `Handle` together with the re-read for `GET` that
follows it (lines 61-77): resulting state, `result`, `err`. -/
def Server.dispatch (s : Server) (r : Request) : Server × Result × Option String :=
  let sw : Server × Result × Option String :=
    if r.Method = "GET" then (s, .items s.get, none)
    else if r.Method = "POST" then
      let o := s.add r
      (o.1, .item o.2.1, o.2.2)
    else if r.Method = "PUT" then
      let o := s.update r
      (o.1, .item o.2.1, o.2.2)
    else if r.Method = "DELETE" then
      let o := s.delete r
      (o.1, .str "OK", o.2)
    else (s, .nil, some "unsupported method")
  if r.Method = "GET" then (sw.1, .items sw.1.get, sw.2.2) else sw

/-- State after serving the requests one after the other. -/
def run (s : Server) : List Request → Server
  | [] => s
  | r :: rs => run (s.dispatch r).1 rs

/-- Key returned by a request, when it is a successful create. -/
def createdKey (r : Request) (out : Server × Result × Option String) : Option Nat :=
  if r.Method = "POST" then
    match out.2 with
    | (.item it, none) => some it.Key
    | _ => none
  else none

/-- Keys returned by the successful creates among the requests, in the order
in which they were served. -/
def createdKeys (s : Server) : List Request → List Nat
  | [] => []
  | r :: rs =>
    match createdKey r (s.dispatch r) with
    | some k => k :: createdKeys (s.dispatch r).1 rs
    | none => createdKeys (s.dispatch r).1 rs

def GET : Request := ⟨"GET", .malformed "EOF"⟩
def POST (v : String) : Request := ⟨"POST", .object 0 v⟩
def PUT (k : Nat) (v : String) : Request := ⟨"PUT", .object k v⟩
def DELETE (k : Nat) : Request := ⟨"DELETE", .object k ""⟩

/-! ## The handler -/

/-- The constant `http.StatusInternalServerError`. -/
def StatusInternalServerError : Nat := 500

/-- What `Handle` sends back, by the call that sends it.
`error msg code` is the call `http.Error(w, msg, code)`: status `code` and the
text `msg` as a plain-text body (package `net/http` ends the text with a line
break).  `json body` is the header `Content-Type: application/json` followed
by `w.Write(body)`, with the implicit status 200. -/
inductive Response where
  | error (msg : String) (code : Nat)
  | json (body : String)
deriving DecidableEq, Repr

/-- The method switch of `Handle` alone (lines 61-73): resulting state,
`result`, `err`. -/
def Server.methodSwitch (s : Server) (r : Request) : Server × Result × Option String :=
  if r.Method = "GET" then (s, .items s.get, none)
  else if r.Method = "POST" then
    let o := s.add r
    (o.1, .item o.2.1, o.2.2)
  else if r.Method = "PUT" then
    let o := s.update r
    (o.1, .item o.2.1, o.2.2)
  else if r.Method = "DELETE" then
    let o := s.delete r
    (o.1, .str "OK", o.2)
  else (s, .nil, some "unsupported method")

/-- Method `Server.Handle`: resulting state and response.  The parameter
`marshal` stands for `json.Marshal` on the values `Handle` passes to it; it
returns the encoded bytes and the error. -/
def Server.Handle (s : Server) (marshal : Result → String × Option String) (r : Request) :
    Server × Response :=
  let o := s.dispatch r
  match o.2.2 with
  | some err => (o.1, .error err StatusInternalServerError)
  | none =>
    match marshal o.2.1 with
    | (_, some err) => (o.1, .error err StatusInternalServerError)
    | (resStr, none) => (o.1, .json resStr)

/-- Follows the spec's words (section 4.2, closing note, and section 9): the
handler simplified to a single `List()` call for `GET`, otherwise identical to
`Handle`.  It serialises what the method switch produced, with no second
read. -/
def Server.HandleSingleRead (s : Server) (marshal : Result → String × Option String)
    (r : Request) : Server × Response :=
  let o := s.methodSwitch r
  match o.2.2 with
  | some err => (o.1, .error err StatusInternalServerError)
  | none =>
    match marshal o.2.1 with
    | (_, some err) => (o.1, .error err StatusInternalServerError)
    | (resStr, none) => (o.1, .json resStr)

/-- The store methods of `Server`. -/
inductive StoreOp where
  | get
  | add
  | update
  | delete
deriving DecidableEq, Repr

/-- The store methods `Handle` invokes for a request, in call order: the one
chosen by the method switch (none in the `default` case), then `get` once more
when the method is `GET`. -/
def Server.storeCalls (r : Request) : List StoreOp :=
  (if r.Method = "GET" then [StoreOp.get]
   else if r.Method = "POST" then [StoreOp.add]
   else if r.Method = "PUT" then [StoreOp.update]
   else if r.Method = "DELETE" then [StoreOp.delete]
   else []) ++
  (if r.Method = "GET" then [StoreOp.get] else [])

/-- The double quote character. -/
def quoteChar : Char := Char.ofNat 34

/-- The backslash character. -/
def backslashChar : Char := Char.ofNat 92

/-- JSON text of a string: quoted, with the quote and the backslash escaped and
every other character written as it is. -/
def jsonString (s : String) : String :=
  String.singleton quoteChar ++
  String.join (s.toList.map fun c =>
    if c = quoteChar ∨ c = backslashChar then String.singleton backslashChar ++ String.singleton c
    else String.singleton c) ++
  String.singleton quoteChar

/-- JSON text of a `ResultItem` under its tags `json:"key,omitempty"` and
`json:"value,omitempty"`: a zero key and an empty value are left out. -/
def jsonItem (i : ResultItem) : String :=
  "\x7b" ++
  String.intercalate ","
    ((if i.Key = 0 then [] else [jsonString "key" ++ ":" ++ toString i.Key]) ++
     (if i.Value = "" then [] else [jsonString "value" ++ ":" ++ jsonString i.Value])) ++
  "\x7d"

/-- An encoder in the shape of `json.Marshal` for the values `Handle` holds in
`result`; it never returns an error.  It instantiates the parameter `marshal`
of `Handle` on concrete inputs. -/
def jsonMarshal : Result → String × Option String
  | .nil => ("null", none)
  | .items l => ("[" ++ String.intercalate "," (l.map jsonItem) ++ "]", none)
  | .item i => (jsonItem i, none)
  | .str s => (jsonString s, none)

/-! ## Concurrent creates

`add` touches shared state twice: `s.id.Add(1)` is one atomic step, and the
section between `s.mux.Lock()` and the deferred `s.mux.Unlock()` is another.
Concurrent calls of `add` are a pool of calls, each before its first step,
between the two, or returned; a schedule picks, one step at a time, the call
that runs next. -/

/-- One call of `add` whose body decodes: the caller and the value of the body. -/
structure Call where
  tid : Nat
  value : String
deriving DecidableEq, Repr

/-- One call of `add` past `s.id.Add(1)`, with the id it was given. -/
structure Held where
  tid : Nat
  id : Nat
  value : String
deriving DecidableEq, Repr

/-- The call a held id belongs to. -/
def Held.call (h : Held) : Call := ⟨h.tid, h.value⟩

/-- The item the call returns: `item.Key = id`, with the value of the body. -/
def Held.item (h : Held) : ResultItem := ⟨h.id, h.value⟩

/-- The server together with the calls of `add` in flight: those that have not
run `s.id.Add(1)` yet, those that have and wait for the lock, and those that
have returned. -/
structure Conc where
  srv : Server
  pending : List Call
  allocated : List Held
  returned : List Held

/-- The element at position `i` of a list, with the other elements. -/
def pick {α : Type} : Nat → List α → Option (α × List α)
  | _, [] => none
  | 0, x :: xs => some (x, xs)
  | i + 1, x :: xs => (pick i xs).map fun p => (p.1, x :: p.2)

/-- One scheduling choice: the pending call at a position runs `s.id.Add(1)`,
or the waiting call at a position runs the locked section and returns. -/
inductive Choice where
  | alloc (i : Nat)
  | insert (i : Nat)
deriving DecidableEq, Repr

/-- One atomic step of one call (a choice that names no call changes nothing). -/
def Conc.step (c : Conc) : Choice → Conc
  | .alloc i =>
    match pick i c.pending with
    | none => c
    | some (call, rest) =>
      let id := atomicAdd1 c.srv.id
      { c with
        srv := { c.srv with id := id }
        pending := rest
        allocated := ⟨call.tid, id, call.value⟩ :: c.allocated }
  | .insert i =>
    match pick i c.allocated with
    | none => c
    | some (h, rest) =>
      { c with
        srv := { c.srv with strs := c.srv.strs.insert h.id h.value }
        allocated := rest
        returned := h :: c.returned }

/-- The steps of a schedule, one after the other. -/
def Conc.run (c : Conc) : List Choice → Conc
  | [] => c
  | x :: xs => (c.step x).run xs

/-- The calls `cs` launched on the state built by `New`. -/
def Conc.init (cs : List Call) : Conc := ⟨New, cs, [], []⟩

/-- The schedule that runs `n` calls to completion one after the other. -/
def sequential : Nat → List Choice
  | 0 => []
  | n + 1 => .alloc 0 :: .insert 0 :: sequential n

/-- Number of calls that have run `s.id.Add(1)`. -/
def Conc.count (c : Conc) : Nat := c.allocated.length + c.returned.length

/-- The ids held by the calls that have run `s.id.Add(1)`. -/
def Conc.keys (c : Conc) : List Nat := c.allocated.map Held.id ++ c.returned.map Held.id

/-- All calls of the pool, whatever their progress. -/
def Conc.calls (c : Conc) : List Call :=
  c.pending ++ (c.allocated.map Held.call ++ c.returned.map Held.call)

/-- The value `Add(1)` returns when the counter, started at 0, has been
incremented `j` times before. -/
def counterKey (j : Nat) : Nat := (j + 1) % 2 ^ 32

/-- Every key of the map lies between 1 and the counter. -/
def keysBounded (s : Server) : Prop := ∀ k ∈ s.strs.keys, 1 ≤ k ∧ k ≤ s.id

instance (s : Server) : Decidable (keysBounded s) :=
  inferInstanceAs (Decidable (∀ k ∈ s.strs.keys, 1 ≤ k ∧ k ≤ s.id))

/-! ## Store operations -/

theorem decode_object (m : String) (k : Nat) (v : String) :
    Server.decode ⟨m, .object k v⟩ = (⟨k, v⟩, none) := rfl

theorem decode_malformed (m e : String) :
    Server.decode ⟨m, .malformed e⟩ = (ResultItem.zero, some e) := rfl

theorem add_object (s : Server) (m : String) (k0 : Nat) (v : String) :
    s.add ⟨m, .object k0 v⟩ =
      (⟨atomicAdd1 s.id, s.strs.insert (atomicAdd1 s.id) v⟩, ⟨atomicAdd1 s.id, v⟩, none) := rfl

theorem add_malformed (s : Server) (m e : String) :
    s.add ⟨m, .malformed e⟩ = (s, ResultItem.zero, some e) := rfl

theorem update_present (s : Server) (m : String) (k : Nat) (v : String) (h : k ∈ s.strs) :
    s.update ⟨m, .object k v⟩ = (⟨s.id, s.strs.insert k v⟩, ⟨k, v⟩, none) := by
  simp [Server.update, Server.decode, h]

theorem update_absent (s : Server) (m : String) (k : Nat) (v : String) (h : k ∉ s.strs) :
    s.update ⟨m, .object k v⟩ = (s, ResultItem.zero, some (notFound k)) := by
  simp [Server.update, Server.decode, h]

theorem update_malformed (s : Server) (m e : String) :
    s.update ⟨m, .malformed e⟩ = (s, ResultItem.zero, some e) := rfl

theorem delete_present (s : Server) (m : String) (k : Nat) (v : String) (h : k ∈ s.strs) :
    s.delete ⟨m, .object k v⟩ = (⟨s.id, s.strs.erase k⟩, none) := by
  simp [Server.delete, Server.decode, h]

theorem delete_absent (s : Server) (m : String) (k : Nat) (v : String) (h : k ∉ s.strs) :
    s.delete ⟨m, .object k v⟩ = (s, some (notFound k)) := by
  simp [Server.delete, Server.decode, h]

theorem delete_malformed (s : Server) (m e : String) :
    s.delete ⟨m, .malformed e⟩ = (s, some e) := rfl

/-- C2 (create contract).  On every state and every body that decodes to an
object `{key: k0, value: v}`, `add` returns no error and the record
`(id, v)`, where `id` is the counter after `Add(1)`; the counter holds `id`
and the map sends `id` to `v` afterwards; the key `k0` of the body changes
neither the returned values nor the resulting state. -/
theorem add_contract (s : Server) (m : String) (k0 : Nat) (v : String) :
    (s.add ⟨m, .object k0 v⟩).2.2 = none ∧
    (s.add ⟨m, .object k0 v⟩).2.1 = ⟨(s.id + 1) % 2 ^ 32, v⟩ ∧
    (s.add ⟨m, .object k0 v⟩).1.id = (s.id + 1) % 2 ^ 32 ∧
    (s.add ⟨m, .object k0 v⟩).1.strs.lookup ((s.id + 1) % 2 ^ 32) = some v ∧
    ∀ k1 : Nat, s.add ⟨m, .object k1 v⟩ = s.add ⟨m, .object k0 v⟩ := by
  refine ⟨rfl, rfl, rfl, ?_, fun _ => rfl⟩
  rw [add_object]
  exact AList.lookup_insert _

/-- C3 (update contract).  On every state and every body that decodes to
`(k, v)`, `update` returns the not-found error exactly when `k` is absent from
the map, and no error exactly when it is present; when `k` is present it
returns the record `(k, v)` and the map sends `k` to `v` afterwards. -/
theorem update_contract (s : Server) (m : String) (k : Nat) (v : String) :
    ((s.update ⟨m, .object k v⟩).2.2 = some (notFound k) ↔ k ∉ s.strs) ∧
    ((s.update ⟨m, .object k v⟩).2.2 = none ↔ k ∈ s.strs) ∧
    (k ∈ s.strs →
      (s.update ⟨m, .object k v⟩).2.1 = ⟨k, v⟩ ∧
      (s.update ⟨m, .object k v⟩).1.strs.lookup k = some v) := by
  by_cases h : k ∈ s.strs
  · rw [update_present s m k v h]
    simp [h]
  · rw [update_absent s m k v h]
    simp [h]

theorem update_contract_witness :
    1 ∈ (New.add (POST "a")).1.strs ∧
    ((New.add (POST "a")).1.update (PUT 1 "b")).2.1 = ⟨1, "b"⟩ ∧
    ((New.add (POST "a")).1.update (PUT 1 "b")).1.strs.lookup 1 = some "b" :=
  ⟨by decide, (update_contract (New.add (POST "a")).1 "PUT" 1 "b").2.2 (by decide)⟩

/-- C4 (delete contract).  On every state and every body that decodes to an
object with key `k`, `delete` returns the not-found error exactly when `k` is
absent from the map, and no error exactly when it is present; when `k` is
present it is absent from the map afterwards. -/
theorem delete_contract (s : Server) (m : String) (k : Nat) (v : String) :
    ((s.delete ⟨m, .object k v⟩).2 = some (notFound k) ↔ k ∉ s.strs) ∧
    ((s.delete ⟨m, .object k v⟩).2 = none ↔ k ∈ s.strs) ∧
    (k ∈ s.strs → k ∉ (s.delete ⟨m, .object k v⟩).1.strs) := by
  by_cases h : k ∈ s.strs
  · rw [delete_present s m k v h]
    simp [h]
  · rw [delete_absent s m k v h]
    simp [h]

theorem delete_contract_witness :
    1 ∈ (New.add (POST "a")).1.strs ∧
    1 ∉ ((New.add (POST "a")).1.delete (DELETE 1)).1.strs :=
  ⟨by decide, (delete_contract (New.add (POST "a")).1 "DELETE" 1 "").2.2 (by decide)⟩

/-! ## Listing -/

theorem mem_get_iff (s : Server) (k : Nat) (v : String) :
    (⟨k, v⟩ : ResultItem) ∈ s.get ↔ s.strs.lookup k = some v := by
  unfold Server.get
  rw [← Option.mem_def, AList.mem_lookup_iff, List.mem_map]
  constructor
  · rintro ⟨⟨k1, v1⟩, he, hx⟩
    simp only [ResultItem.mk.injEq] at hx
    obtain ⟨rfl, rfl⟩ := hx
    exact he
  · intro he
    exact ⟨⟨k, v⟩, he, rfl⟩

theorem get_keys (s : Server) : s.get.map ResultItem.Key = s.strs.keys := by
  simp [Server.get, AList.keys, List.keys, List.map_map, Function.comp_def]

theorem get_length (s : Server) : s.get.length = s.strs.keys.length := by
  rw [← get_keys, List.length_map]

/-- C8 (list returns the store contents).  For every state, the sequence
returned by `get` holds the record `(k, v)` exactly when the map sends `k` to
`v`, it has as many records as the map has keys, and the keys of its records
are pairwise distinct. -/
theorem get_contents (s : Server) :
    (∀ (k : Nat) (v : String), (⟨k, v⟩ : ResultItem) ∈ s.get ↔ s.strs.lookup k = some v) ∧
    s.get.length = s.strs.keys.toFinset.card ∧
    (s.get.map ResultItem.Key).Nodup := by
  refine ⟨mem_get_iff s, ?_, ?_⟩
  · rw [List.toFinset_card_of_nodup s.strs.keys_nodup, get_length]
  · rw [get_keys]
    exact s.strs.keys_nodup

/-- C5 (delete removes exactly one record).  When key `k` is present, a
`delete` of `k` returns no error; the following `get` holds no record with key
`k`, holds a record with another key exactly when the `get` before held it, is
one record shorter, and the counter is unchanged. -/
theorem delete_removes_one (s : Server) (m : String) (k : Nat) (v : String)
    (h : k ∈ s.strs) :
    (s.delete ⟨m, .object k v⟩).2 = none ∧
    (∀ x ∈ (s.delete ⟨m, .object k v⟩).1.get, x.Key ≠ k) ∧
    (s.delete ⟨m, .object k v⟩).1.get.length + 1 = s.get.length ∧
    (∀ x : ResultItem, x.Key ≠ k → (x ∈ (s.delete ⟨m, .object k v⟩).1.get ↔ x ∈ s.get)) ∧
    (s.delete ⟨m, .object k v⟩).1.id = s.id := by
  rw [delete_present s m k v h]
  refine ⟨rfl, ?_, ?_, ?_, rfl⟩
  · rintro ⟨k1, v1⟩ hx rfl
    rw [mem_get_iff] at hx
    simp [AList.lookup_erase] at hx
  · rw [get_length, get_length]
    simp only [AList.keys_erase]
    rw [List.length_erase_of_mem (AList.mem_keys.mp h)]
    have : 0 < s.strs.keys.length := List.length_pos_of_mem (AList.mem_keys.mp h)
    omega
  · rintro ⟨k1, v1⟩ hne
    rw [mem_get_iff, mem_get_iff]
    simp only [AList.lookup_erase_ne hne]

theorem delete_removes_one_witness :
    2 ∈ (run New [POST "a", POST "b"]).strs ∧
    ((run New [POST "a", POST "b"]).delete (DELETE 2)).1.get.length + 1 =
      (run New [POST "a", POST "b"]).get.length :=
  ⟨by decide,
    (delete_removes_one (run New [POST "a", POST "b"]) "DELETE" 2 "" (by decide)).2.2.1⟩

/-- C6 (update preserves keys).  When key `k` is present, an `update` of `k`
to `v` returns no error; the following `get` holds the record `(k, v)`, has
the same keys and the same length as the `get` before, holds a record with
another key exactly when the `get` before held it, and the counter is
unchanged. -/
theorem update_preserves_keys (s : Server) (m : String) (k : Nat) (v : String)
    (h : k ∈ s.strs) :
    (s.update ⟨m, .object k v⟩).2.2 = none ∧
    (⟨k, v⟩ : ResultItem) ∈ (s.update ⟨m, .object k v⟩).1.get ∧
    (∀ k1 : Nat, k1 ∈ (s.update ⟨m, .object k v⟩).1.get.map ResultItem.Key ↔
      k1 ∈ s.get.map ResultItem.Key) ∧
    (s.update ⟨m, .object k v⟩).1.get.length = s.get.length ∧
    (∀ x : ResultItem, x.Key ≠ k → (x ∈ (s.update ⟨m, .object k v⟩).1.get ↔ x ∈ s.get)) ∧
    (s.update ⟨m, .object k v⟩).1.id = s.id := by
  rw [update_present s m k v h]
  refine ⟨rfl, ?_, ?_, ?_, ?_, rfl⟩
  · rw [mem_get_iff]
    exact AList.lookup_insert _
  · intro k1
    rw [get_keys, get_keys, ← AList.mem_keys, ← AList.mem_keys]
    simp only [AList.mem_insert]
    constructor
    · rintro (rfl | h1)
      · exact h
      · exact h1
    · exact Or.inr
  · rw [get_length, get_length]
    simp only [AList.keys_insert, List.length_cons]
    rw [List.length_erase_of_mem (AList.mem_keys.mp h)]
    have : 0 < s.strs.keys.length := List.length_pos_of_mem (AList.mem_keys.mp h)
    omega
  · rintro ⟨k1, v1⟩ hne
    rw [mem_get_iff, mem_get_iff]
    simp only [AList.lookup_insert_ne hne]

theorem update_preserves_keys_witness :
    1 ∈ (run New [POST "a", POST "b"]).strs ∧
    (⟨1, "aa"⟩ : ResultItem) ∈ ((run New [POST "a", POST "b"]).update (PUT 1 "aa")).1.get :=
  ⟨by decide,
    (update_preserves_keys (run New [POST "a", POST "b"]) "PUT" 1 "aa" (by decide)).2.1⟩

theorem dispatch_GET (s : Server) (b : Body) :
    s.dispatch ⟨"GET", b⟩ = (s, .items s.get, none) := by
  simp [Server.dispatch]

theorem get_perm_of_lookup_eq (s t : Server)
    (h : ∀ k : Nat, t.strs.lookup k = s.strs.lookup k) : t.get.Perm s.get := by
  unfold Server.get
  apply List.Perm.map
  apply List.lookup_ext t.strs.nodupKeys s.strs.nodupKeys
  intro k v
  have := h k
  simp only [AList.lookup] at this
  rw [this]

/-- C9 (idempotent read).  For every state, serving a `GET` leaves the map and
the counter as they were and returns the `get` of that state; a second `GET`
served right after the first returns the same records up to order; and the
records returned do not depend, up to order, on the order in which the map is
iterated: two states whose maps send every key to the same value list the
same records. -/
theorem list_idempotent (s : Server) (b1 b2 : Body) :
    (s.dispatch ⟨"GET", b1⟩).1 = s ∧
    (s.dispatch ⟨"GET", b1⟩).2 = (.items s.get, none) ∧
    (∃ l1 l2 : List ResultItem,
      (s.dispatch ⟨"GET", b1⟩).2.1 = .items l1 ∧
      ((s.dispatch ⟨"GET", b1⟩).1.dispatch ⟨"GET", b2⟩).2.1 = .items l2 ∧
      l1.Perm l2) ∧
    ((s.dispatch ⟨"GET", b1⟩).1.dispatch ⟨"GET", b2⟩).1 = s ∧
    (∀ t : Server, (∀ k : Nat, t.strs.lookup k = s.strs.lookup k) → t.get.Perm s.get) := by
  have h1 : s.dispatch ⟨"GET", b1⟩ = (s, .items s.get, none) := dispatch_GET s b1
  have h2 : s.dispatch ⟨"GET", b2⟩ = (s, .items s.get, none) := dispatch_GET s b2
  rw [h1]
  refine ⟨rfl, rfl, ⟨s.get, s.get, rfl, ?_, List.Perm.refl _⟩, ?_,
    fun t h => get_perm_of_lookup_eq s t h⟩
  · show (s.dispatch ⟨"GET", b2⟩).2.1 = _
    rw [h2]
  · show (s.dispatch ⟨"GET", b2⟩).1 = _
    rw [h2]

theorem list_idempotent_witness :
    (∀ k : Nat, (Server.mk 0 ((AList.insert 1 "a" ∅).insert 2 "b")).strs.lookup k =
      (Server.mk 0 ((AList.insert 2 "b" ∅).insert 1 "a")).strs.lookup k) ∧
    (Server.mk 0 ((AList.insert 1 "a" ∅).insert 2 "b")).get.Perm
      (Server.mk 0 ((AList.insert 2 "b" ∅).insert 1 "a")).get :=
  ⟨fun _ => AList.perm_lookup (by decide),
    (list_idempotent (Server.mk 0 ((AList.insert 2 "b" ∅).insert 1 "a"))
      (.malformed "EOF") (.malformed "EOF")).2.2.2.2
      (Server.mk 0 ((AList.insert 1 "a" ∅).insert 2 "b"))
      (fun _ => AList.perm_lookup (by decide))⟩

/-- C10 (end-to-end scenario).  On the state built by `New`: creating "a"
returns the record (1, "a"); creating "b" returns (2, "b"); the list is then
(1, "a"), (2, "b") up to order; updating key 1 to "aa" returns (1, "aa");
deleting key 2 returns no error; the list is then (1, "aa"); deleting key 2
again returns the not-found error and changes nothing. -/
theorem scenario :
    ∃ s1 s2 s3 s4 : Server,
      New.add (POST "a") = (s1, ⟨1, "a"⟩, none) ∧
      s1.add (POST "b") = (s2, ⟨2, "b"⟩, none) ∧
      s2.get.Perm [⟨1, "a"⟩, ⟨2, "b"⟩] ∧
      s2.update (PUT 1 "aa") = (s3, ⟨1, "aa"⟩, none) ∧
      s3.delete (DELETE 2) = (s4, none) ∧
      s4.get.Perm [⟨1, "aa"⟩] ∧
      s4.delete (DELETE 2) = (s4, some "item with id 2 not found") :=
  ⟨(New.add (POST "a")).1,
    (run New [POST "a", POST "b"]),
    (run New [POST "a", POST "b", PUT 1 "aa"]),
    (run New [POST "a", POST "b", PUT 1 "aa", DELETE 2]),
    rfl, rfl, by decide, rfl, rfl, by decide, rfl⟩

/-! ## Sequences of requests -/

/-- One served request either returns no created key, keeps the counter and
adds no key to the map, or it returns the incremented counter as created key
and adds at most that key to the map. -/
theorem dispatch_cases (s : Server) (r : Request) :
    (createdKey r (s.dispatch r) = none ∧ (s.dispatch r).1.id = s.id ∧
      ∀ k : Nat, k ∈ (s.dispatch r).1.strs → k ∈ s.strs) ∨
    (createdKey r (s.dispatch r) = some (atomicAdd1 s.id) ∧
      (s.dispatch r).1.id = atomicAdd1 s.id ∧
      ∀ k : Nat, k ∈ (s.dispatch r).1.strs → k = atomicAdd1 s.id ∨ k ∈ s.strs) := by
  obtain ⟨m, b⟩ := r
  have hPG : ("POST" : String) ≠ "GET" := by decide
  have hUG : ("PUT" : String) ≠ "GET" := by decide
  have hUP : ("PUT" : String) ≠ "POST" := by decide
  have hDG : ("DELETE" : String) ≠ "GET" := by decide
  have hDP : ("DELETE" : String) ≠ "POST" := by decide
  have hDU : ("DELETE" : String) ≠ "PUT" := by decide
  by_cases hG : m = "GET"
  · subst hG
    left
    simp [Server.dispatch, createdKey, hPG.symm]
  by_cases hP : m = "POST"
  · subst hP
    cases b with
    | malformed e =>
      left
      simp [Server.dispatch, createdKey, hPG, add_malformed]
    | object k v =>
      right
      simp [Server.dispatch, createdKey, hPG, add_object, AList.mem_insert]
  by_cases hU : m = "PUT"
  · subst hU
    left
    cases b with
    | malformed e => simp [Server.dispatch, createdKey, hUG, hUP, update_malformed]
    | object k v =>
      by_cases hk : k ∈ s.strs
      · simp only [Server.dispatch, createdKey, hUG, hUP, update_present s _ k v hk,
          if_false, if_true, true_and]
        intro k1 h1
        rcases (AList.mem_insert _).mp h1 with rfl | h2
        · exact hk
        · exact h2
      · simp [Server.dispatch, createdKey, hUG, hUP, update_absent s _ k v hk]
  by_cases hD : m = "DELETE"
  · subst hD
    left
    cases b with
    | malformed e => simp [Server.dispatch, createdKey, hDG, hDP, hDU, delete_malformed]
    | object k v =>
      by_cases hk : k ∈ s.strs
      · simp only [Server.dispatch, createdKey, hDG, hDP, hDU, delete_present s _ k v hk,
          if_false, if_true, true_and]
        intro k1 h1
        exact (AList.mem_erase.mp h1).2
      · simp [Server.dispatch, createdKey, hDG, hDP, hDU, delete_absent s _ k v hk]
  · left
    simp [Server.dispatch, createdKey, hG, hP, hU, hD]

/-- The created keys are the successive values of the counter: the `i`-th one
is the starting counter plus `i + 1`, modulo `2 ^ 32`. -/
theorem createdKeys_eq (reqs : List Request) (s : Server) :
    createdKeys s reqs =
      (List.range (createdKeys s reqs).length).map (fun i => (s.id + 1 + i) % 2 ^ 32) := by
  induction reqs generalizing s with
  | nil => simp [createdKeys]
  | cons r rs ih =>
    rcases dispatch_cases s r with ⟨hk, hid, -⟩ | ⟨hk, hid, -⟩
    · have h : createdKeys s (r :: rs) = createdKeys (s.dispatch r).1 rs := by
        simp [createdKeys, hk]
      rw [h, ih (s.dispatch r).1, hid]
      simp
    · have h : createdKeys s (r :: rs) =
          atomicAdd1 s.id :: createdKeys (s.dispatch r).1 rs := by
        simp [createdKeys, hk]
      rw [h, List.length_cons, List.range_succ_eq_map, List.map_cons, List.map_map]
      congr 1
      conv_lhs => rw [ih (s.dispatch r).1, hid]
      apply List.map_congr_left
      intro i _
      simp only [atomicAdd1, Function.comp_apply]
      omega

theorem mem_run_strs (reqs : List Request) (s : Server) (k : Nat)
    (h : k ∈ (run s reqs).strs) : k ∈ s.strs ∨ k ∈ createdKeys s reqs := by
  induction reqs generalizing s with
  | nil => exact Or.inl h
  | cons r rs ih =>
    have h1 := ih (s.dispatch r).1 h
    rcases dispatch_cases s r with ⟨hk, -, hm⟩ | ⟨hk, -, hm⟩
    · have hc : createdKeys s (r :: rs) = createdKeys (s.dispatch r).1 rs := by
        simp [createdKeys, hk]
      rw [hc]
      exact h1.imp_left (hm k)
    · have hc : createdKeys s (r :: rs) =
          atomicAdd1 s.id :: createdKeys (s.dispatch r).1 rs := by
        simp [createdKeys, hk]
      rw [hc]
      rcases h1 with h2 | h2
      · rcases hm k h2 with rfl | h3
        · exact Or.inr (List.mem_cons_self _ _)
        · exact Or.inl h3
      · exact Or.inr (List.mem_cons_of_mem _ h2)

theorem createdKeys_replicate_length (n : Nat) (v : String) (s : Server) :
    (createdKeys s (List.replicate n (POST v))).length = n := by
  induction n generalizing s with
  | zero => rfl
  | succ n ih =>
    have hPG : ("POST" : String) ≠ "GET" := by decide
    have h : createdKeys s (POST v :: List.replicate n (POST v)) =
        atomicAdd1 s.id :: createdKeys (s.dispatch (POST v)).1 (List.replicate n (POST v)) := by
      simp [createdKeys, createdKey, Server.dispatch, POST, hPG, add_object]
    rw [List.replicate_succ, h, List.length_cons, ih]

/-- C1, as stated, fails once the 32-bit counter wraps.  Serving `2 ^ 32`
creates on the state built by `New` returns the keys 1, 2, ..., 2 ^ 32 - 1
and then 0, so the returned keys are not strictly increasing. -/
theorem created_keys_wrap :
    ¬ (createdKeys New (List.replicate (2 ^ 32) (POST ""))).Pairwise (· < ·) := by
  intro h
  rw [createdKeys_eq, createdKeys_replicate_length, List.pairwise_map] at h
  have hN : (2 : Nat) ^ 32 = 4294967295 + 1 := by norm_num
  rw [hN, List.range_succ, List.pairwise_append] at h
  have h0 : (0 : Nat) ∈ List.range 4294967295 := List.mem_range.mpr (by norm_num)
  have := h.2.2 0 h0 4294967295 (List.mem_singleton_self _)
  simp [New] at this

/-- C1 (key uniqueness and monotonicity), amended.  Starting from the state
built by `New`, for every sequence of requests among which fewer than `2 ^ 32`
are successful creates, the keys returned by the creates, in the order in which
they were served, are strictly increasing and pairwise distinct. -/
theorem created_keys_increasing (reqs : List Request)
    (h : (createdKeys New reqs).length < 2 ^ 32) :
    (createdKeys New reqs).Pairwise (· < ·) ∧ (createdKeys New reqs).Nodup := by
  have hp : (createdKeys New reqs).Pairwise (· < ·) := by
    rw [createdKeys_eq, List.pairwise_map]
    refine (List.pairwise_lt_range _).imp_of_mem ?_
    intro i j hi hj hij
    have hi1 := List.mem_range.mp hi
    have hj1 := List.mem_range.mp hj
    simp only [New]
    rw [Nat.mod_eq_of_lt (by omega), Nat.mod_eq_of_lt (by omega)]
    omega
  exact ⟨hp, hp.imp (fun hab => Nat.ne_of_lt hab)⟩

theorem created_keys_increasing_witness :
    (createdKeys New [POST "a", DELETE 1, GET, POST "b", PUT 2 "c", POST "d"]).length < 2 ^ 32 ∧
    (createdKeys New [POST "a", DELETE 1, GET, POST "b", PUT 2 "c", POST "d"]).Pairwise
      (· < ·) ∧
    (createdKeys New [POST "a", DELETE 1, GET, POST "b", PUT 2 "c", POST "d"]).Nodup :=
  ⟨by decide,
    created_keys_increasing [POST "a", DELETE 1, GET, POST "b", PUT 2 "c", POST "d"]
      (by decide)⟩

/-- C7 (not-found for keys never created).  In the state reached from the one
built by `New` by serving any sequence of requests, an `update` and a `delete`
whose body carries a key that no earlier create returned both return the
not-found error for that key. -/
theorem never_created_not_found (reqs : List Request) (k : Nat)
    (mu md : String) (vu vd : String) (h : k ∉ createdKeys New reqs) :
    ((run New reqs).update ⟨mu, .object k vu⟩).2.2 = some (notFound k) ∧
    ((run New reqs).delete ⟨md, .object k vd⟩).2 = some (notFound k) := by
  have hk : k ∉ (run New reqs).strs := by
    intro hmem
    rcases mem_run_strs reqs New k hmem with h1 | h1
    · exact AList.not_mem_empty k h1
    · exact h h1
  rw [update_absent _ mu k vu hk, delete_absent _ md k vd hk]
  exact ⟨rfl, rfl⟩

theorem never_created_not_found_witness :
    (999999 ∉ createdKeys New [] ∧
      ((run New []).update (PUT 999999 "x")).2.2 = some (notFound 999999) ∧
      ((run New []).delete (DELETE 999999)).2 = some (notFound 999999)) ∧
    (0 ∉ createdKeys New [POST "a", DELETE 1] ∧
      ((run New [POST "a", DELETE 1]).update (PUT 0 "x")).2.2 = some (notFound 0) ∧
      ((run New [POST "a", DELETE 1]).delete (DELETE 0)).2 = some (notFound 0)) :=
  ⟨⟨by decide, never_created_not_found [] 999999 "PUT" "DELETE" "x" "" (by decide)⟩,
    ⟨by decide,
      never_created_not_found [POST "a", DELETE 1] 0 "PUT" "DELETE" "x" "" (by decide)⟩⟩

/-! ## The handler -/

theorem dispatch_eq_methodSwitch (s : Server) (r : Request) :
    s.dispatch r = s.methodSwitch r := by
  unfold Server.dispatch Server.methodSwitch
  by_cases hG : r.Method = "GET"
  · simp [hG]
  · simp [hG]

theorem dispatch_POST (s : Server) (b : Body) :
    s.dispatch ⟨"POST", b⟩ =
      ((s.add ⟨"POST", b⟩).1, .item (s.add ⟨"POST", b⟩).2.1, (s.add ⟨"POST", b⟩).2.2) := by
  have hPG : ("POST" : String) ≠ "GET" := by decide
  simp [Server.dispatch, hPG]

theorem dispatch_PUT (s : Server) (b : Body) :
    s.dispatch ⟨"PUT", b⟩ =
      ((s.update ⟨"PUT", b⟩).1, .item (s.update ⟨"PUT", b⟩).2.1,
        (s.update ⟨"PUT", b⟩).2.2) := by
  have hUG : ("PUT" : String) ≠ "GET" := by decide
  have hUP : ("PUT" : String) ≠ "POST" := by decide
  simp [Server.dispatch, hUG, hUP]

theorem dispatch_DELETE (s : Server) (b : Body) :
    s.dispatch ⟨"DELETE", b⟩ =
      ((s.delete ⟨"DELETE", b⟩).1, .str "OK", (s.delete ⟨"DELETE", b⟩).2) := by
  have hDG : ("DELETE" : String) ≠ "GET" := by decide
  have hDP : ("DELETE" : String) ≠ "POST" := by decide
  have hDU : ("DELETE" : String) ≠ "PUT" := by decide
  simp [Server.dispatch, hDG, hDP, hDU]

theorem dispatch_unsupported (s : Server) (r : Request) (hG : r.Method ≠ "GET")
    (hP : r.Method ≠ "POST") (hU : r.Method ≠ "PUT") (hD : r.Method ≠ "DELETE") :
    s.dispatch r = (s, .nil, some "unsupported method") := by
  simp [Server.dispatch, hG, hP, hU, hD]

theorem Handle_of_err (s : Server) (marshal : Result → String × Option String)
    (r : Request) (e : String) (h : (s.dispatch r).2.2 = some e) :
    s.Handle marshal r = ((s.dispatch r).1, .error e 500) := by
  simp [Server.Handle, h, StatusInternalServerError]

theorem Handle_of_ok (s : Server) (marshal : Result → String × Option String)
    (r : Request) (h : (s.dispatch r).2.2 = none) (hm : (marshal (s.dispatch r).2.1).2 = none) :
    s.Handle marshal r = ((s.dispatch r).1, .json (marshal (s.dispatch r).2.1).1) := by
  unfold Server.Handle
  simp only [h]
  generalize marshal (s.dispatch r).2.1 = p at hm
  obtain ⟨b, e⟩ := p
  simp only at hm
  subst hm
  rfl

/-- C11 (unsupported method).  For every state, every body and every method
other than "GET", "POST", "PUT" and "DELETE", `Handle` answers with
`http.Error` carrying the text "unsupported method" and the status 500, it
invokes no store method, and it leaves the map and the counter as they
were. -/
theorem unsupported_method (s : Server) (marshal : Result → String × Option String)
    (r : Request) (hG : r.Method ≠ "GET") (hP : r.Method ≠ "POST")
    (hU : r.Method ≠ "PUT") (hD : r.Method ≠ "DELETE") :
    s.Handle marshal r = (s, .error "unsupported method" 500) ∧
    Server.storeCalls r = [] := by
  constructor
  · have h := dispatch_unsupported s r hG hP hU hD
    rw [Handle_of_err s marshal r "unsupported method" (by rw [h]), h]
  · simp [Server.storeCalls, hG, hP, hU, hD]

theorem unsupported_method_witness :
    (run New [POST "a"]).Handle jsonMarshal ⟨"PATCH", .object 1 "b"⟩ =
      (run New [POST "a"], .error "unsupported method" 500) ∧
    Server.storeCalls ⟨"PATCH", .object 1 "b"⟩ = [] :=
  unsupported_method (run New [POST "a"]) jsonMarshal ⟨"PATCH", .object 1 "b"⟩
    (by decide) (by decide) (by decide) (by decide)

/-- The error returned by the dispatched operation, the state it leaves, and
the value left in `result`, case by case. -/
theorem dispatch_outcome (s : Server) (r : Request) :
    ((s.dispatch r).2.2 ≠ none ↔
      (r.Method ≠ "GET" ∧ r.Method ≠ "POST" ∧ r.Method ≠ "PUT" ∧ r.Method ≠ "DELETE") ∨
      ((r.Method = "POST" ∨ r.Method = "PUT" ∨ r.Method = "DELETE") ∧
        ∃ e : String, r.Body = .malformed e) ∨
      ((r.Method = "PUT" ∨ r.Method = "DELETE") ∧
        ∃ (k : Nat) (v : String), r.Body = .object k v ∧ k ∉ s.strs)) ∧
    ((s.dispatch r).2.2 ≠ none → (s.dispatch r).1 = s) := by
  obtain ⟨m, b⟩ := r
  have hPG : ("POST" : String) ≠ "GET" := by decide
  have hUG : ("PUT" : String) ≠ "GET" := by decide
  have hUP : ("PUT" : String) ≠ "POST" := by decide
  have hDG : ("DELETE" : String) ≠ "GET" := by decide
  have hDP : ("DELETE" : String) ≠ "POST" := by decide
  have hDU : ("DELETE" : String) ≠ "PUT" := by decide
  by_cases hG : m = "GET"
  · subst hG
    rw [dispatch_GET]
    simp [hPG.symm, hUG.symm, hDG.symm]
  by_cases hP : m = "POST"
  · subst hP
    rw [dispatch_POST]
    cases b with
    | malformed e => simp [add_malformed, hPG, hUP.symm, hDP.symm]
    | object k v => simp [add_object, hPG, hUP.symm, hDP.symm]
  by_cases hU : m = "PUT"
  · subst hU
    rw [dispatch_PUT]
    cases b with
    | malformed e => simp [update_malformed]
    | object k v =>
      by_cases hk : k ∈ s.strs
      · simp [update_present s _ k v hk, hk]
      · simp [update_absent s _ k v hk, hk]
  by_cases hD : m = "DELETE"
  · subst hD
    rw [dispatch_DELETE]
    cases b with
    | malformed e => simp [delete_malformed]
    | object k v =>
      by_cases hk : k ∈ s.strs
      · simp [delete_present s _ k v hk, hk, hDU]
      · simp [delete_absent s _ k v hk, hk]
  · rw [dispatch_unsupported s ⟨m, b⟩ hG hP hU hD]
    simp [hG, hP, hU, hD]

/-- C13 (no partial mutation on failure).  For every state and request, when
the dispatched operation returns an error the state after the request is the
state before it, map and counter alike; with `marshal`, standing for
`json.Marshal`, returning no error, this holds whenever `Handle` answers with
`http.Error`.  A POST with a malformed body answers with the decoding error
and leaves the counter as it was. -/
theorem failure_leaves_state (s : Server) (marshal : Result → String × Option String)
    (hm : ∀ x : Result, (marshal x).2 = none) (r : Request) :
    ((s.dispatch r).2.2 ≠ none → (s.Handle marshal r).1 = s) ∧
    ((∃ (msg : String) (code : Nat), (s.Handle marshal r).2 = .error msg code) →
      (s.Handle marshal r).1 = s) ∧
    (∀ e : String, s.Handle marshal ⟨"POST", .malformed e⟩ = (s, .error e 500)) := by
  have key : (s.dispatch r).2.2 ≠ none → (s.Handle marshal r).1 = s := by
    intro h
    have hs := (dispatch_outcome s r).2 h
    cases he : (s.dispatch r).2.2 with
    | none => exact absurd he h
    | some e => rw [Handle_of_err s marshal r e he]; exact hs
  refine ⟨key, ?_, ?_⟩
  · intro hf
    apply key
    cases h : (s.dispatch r).2.2 with
    | none =>
      rw [Handle_of_ok s marshal r h (hm _)] at hf
      simp at hf
    | some e => simp
  · intro e
    have h : (s.dispatch ⟨"POST", .malformed e⟩).2.2 = some e := by
      rw [dispatch_POST, add_malformed]
    rw [Handle_of_err s marshal _ e h, dispatch_POST, add_malformed]

theorem failure_leaves_state_witness :
    (∀ x : Result, (jsonMarshal x).2 = none) ∧
    (∃ (msg : String) (code : Nat),
      ((run New [POST "a"]).Handle jsonMarshal (PUT 7 "b")).2 = .error msg code) ∧
    ((run New [POST "a"]).Handle jsonMarshal (PUT 7 "b")).1 = run New [POST "a"] :=
  ⟨fun x => by cases x <;> rfl,
    ⟨notFound 7, 500, by decide⟩,
    (failure_leaves_state (run New [POST "a"]) jsonMarshal (fun x => by cases x <;> rfl)
      (PUT 7 "b")).2.1 ⟨notFound 7, 500, by decide⟩⟩

/-- C15 (the second read for GET is unobservable).  With requests served one
at a time, for every state and request `Handle` gives the same response and
the same resulting state as the handler that reads the list once, and the
block after the method switch changes neither the state, nor `result`, nor
`err`, whatever the method. -/
theorem single_read_equivalent (s : Server) (marshal : Result → String × Option String)
    (r : Request) :
    s.Handle marshal r = s.HandleSingleRead marshal r ∧
    s.dispatch r = s.methodSwitch r := by
  refine ⟨?_, dispatch_eq_methodSwitch s r⟩
  unfold Server.Handle Server.HandleSingleRead
  rw [dispatch_eq_methodSwitch]

/-! ## Concurrent creates -/

theorem pick_perm {α : Type} (l : List α) :
    ∀ (i : Nat) (x : α) (r : List α), pick i l = some (x, r) → l.Perm (x :: r) := by
  induction l with
  | nil => intro i x r h; cases i <;> simp [pick] at h
  | cons y ys ih =>
    intro i x r h
    cases i with
    | zero =>
      simp only [pick, Option.some.injEq, Prod.mk.injEq] at h
      obtain ⟨rfl, rfl⟩ := h
      exact List.Perm.refl _
    | succ i =>
      simp only [pick, Option.map_eq_some', Prod.mk.injEq] at h
      obtain ⟨⟨x1, r1⟩, hp, rfl, rfl⟩ := h
      exact ((ih i x1 r1 hp).cons y).trans (List.Perm.swap x1 y r1)

theorem pick_length {α : Type} (l : List α) (i : Nat) (x : α) (r : List α)
    (h : pick i l = some (x, r)) : l.length = r.length + 1 := by
  rw [(pick_perm l i x r h).length_eq, List.length_cons]

theorem step_calls (c : Conc) (x : Choice) : (c.step x).calls.Perm c.calls := by
  cases x with
  | alloc i =>
    cases h : pick i c.pending with
    | none => simp [Conc.step, h]
    | some p =>
      obtain ⟨call, rest⟩ := p
      have hp := pick_perm _ _ _ _ h
      simp only [Conc.step, h, Conc.calls, List.map_cons, Held.call, List.cons_append]
      exact List.perm_middle.trans (List.Perm.append_right _ hp.symm)
  | insert i =>
    cases h : pick i c.allocated with
    | none => simp [Conc.step, h]
    | some p =>
      obtain ⟨hd, rest⟩ := p
      have hp := (pick_perm _ _ _ _ h).map Held.call
      simp only [Conc.step, h, Conc.calls, List.map_cons]
      apply List.Perm.append_left
      exact List.perm_middle.trans (List.Perm.append_right _ hp.symm)

theorem step_keys (c : Conc) (x : Choice) (hid : c.srv.id = c.count % 2 ^ 32)
    (hk : c.keys.Perm ((List.range c.count).map counterKey)) :
    (c.step x).srv.id = (c.step x).count % 2 ^ 32 ∧
    (c.step x).keys.Perm ((List.range (c.step x).count).map counterKey) := by
  cases x with
  | alloc i =>
    cases h : pick i c.pending with
    | none => simpa [Conc.step, h] using ⟨hid, hk⟩
    | some p =>
      obtain ⟨call, rest⟩ := p
      have hc : (c.step (.alloc i)).count = c.count + 1 := by
        simp only [Conc.step, h, Conc.count, List.length_cons]
        omega
      have hnew : atomicAdd1 c.srv.id = counterKey c.count := by
        simp only [atomicAdd1, counterKey, hid]
        omega
      rw [hc]
      constructor
      · simp only [Conc.step, h, hnew, counterKey]
      · rw [List.range_succ, List.map_append, List.map_singleton]
        simp only [Conc.step, h, Conc.keys, List.map_cons, List.cons_append, hnew]
        exact (hk.cons _).trans (List.perm_append_singleton _ _).symm
  | insert i =>
    cases h : pick i c.allocated with
    | none => simpa [Conc.step, h] using ⟨hid, hk⟩
    | some p =>
      obtain ⟨hd, rest⟩ := p
      have hl := pick_length _ _ _ _ h
      have hp := (pick_perm _ _ _ _ h).map Held.id
      have hc : (c.step (.insert i)).count = c.count := by
        simp only [Conc.step, h, Conc.count, List.length_cons]
        omega
      rw [hc]
      constructor
      · simpa [Conc.step, h] using hid
      · refine List.Perm.trans ?_ hk
        simp only [Conc.step, h, Conc.keys, List.map_cons]
        exact List.perm_middle.trans (List.Perm.append_right _ hp.symm)

theorem step_store (c : Conc) (x : Choice) (hnd : c.keys.Nodup)
    (hs : c.srv.get.Perm (c.returned.map Held.item)) :
    (c.step x).srv.get.Perm ((c.step x).returned.map Held.item) := by
  cases x with
  | alloc i =>
    cases h : pick i c.pending with
    | none => simpa [Conc.step, h] using hs
    | some p =>
      obtain ⟨call, rest⟩ := p
      simpa [Conc.step, h, Server.get] using hs
  | insert i =>
    cases h : pick i c.allocated with
    | none => simpa [Conc.step, h] using hs
    | some p =>
      obtain ⟨hd, rest⟩ := p
      have hp := (pick_perm _ _ _ _ h).map Held.id
      have hmem : hd.id ∈ c.allocated.map Held.id :=
        hp.symm.subset (by simp)
      have hnot : hd.id ∉ c.returned.map Held.id := by
        intro hr
        exact (List.nodup_append.mp hnd).2.2 hmem hr
      have hfresh : hd.id ∉ c.srv.strs := by
        rw [AList.mem_keys, ← get_keys]
        intro hin
        apply hnot
        have := (hs.map ResultItem.Key).subset hin
        simpa [List.map_map, Function.comp_def, Held.item] using this
      simp only [Conc.step, h, Server.get, AList.insert_entries_of_neg hfresh, List.map_cons]
      exact List.Perm.cons _ hs

theorem counterKey_nodup (n : Nat) (hn : n ≤ 2 ^ 32) :
    ((List.range n).map counterKey).Nodup := by
  refine List.Nodup.map_on ?_ (List.nodup_range n)
  intro x hx y hy hxy
  have hx1 := List.mem_range.mp hx
  have hy1 := List.mem_range.mp hy
  simp only [counterKey] at hxy
  omega

theorem calls_length (c : Conc) : c.calls.length = c.pending.length + c.count := by
  simp [Conc.calls, Conc.count]

/-- The two steps of one call, run back to back, are `add`. -/
theorem alloc_insert_eq_add (c : Conc) (call : Call) (rest : List Call) (m : String)
    (k0 : Nat) (hp : c.pending = call :: rest) (ha : c.allocated = []) :
    ((c.step (.alloc 0)).step (.insert 0)).srv = (c.srv.add ⟨m, .object k0 call.value⟩).1 ∧
    ((c.step (.alloc 0)).step (.insert 0)).returned.head?.map Held.item =
      some (c.srv.add ⟨m, .object k0 call.value⟩).2.1 := by
  simp [Conc.step, pick, hp, ha, add_object, Held.item]

theorem run_inv (cs : List Call) (sched : List Choice) :
    ∀ c : Conc, c.calls.Perm cs → c.srv.id = c.count % 2 ^ 32 →
      c.keys.Perm ((List.range c.count).map counterKey) →
      (cs.length ≤ 2 ^ 32 → c.srv.get.Perm (c.returned.map Held.item)) →
      (c.run sched).calls.Perm cs ∧
      (c.run sched).keys.Perm ((List.range (c.run sched).count).map counterKey) ∧
      (cs.length ≤ 2 ^ 32 → (c.run sched).srv.get.Perm ((c.run sched).returned.map Held.item)) := by
  induction sched with
  | nil => intro c hc _ hk hs; exact ⟨hc, hk, hs⟩
  | cons x xs ih =>
    intro c hc hid hk hs
    have h1 := step_keys c x hid hk
    refine ih (c.step x) ((step_calls c x).trans hc) h1.1 h1.2 ?_
    intro hC
    have hlen : c.count ≤ cs.length := by
      rw [← hc.length_eq, calls_length]
      omega
    exact step_store c x (hk.nodup_iff.mpr (counterKey_nodup _ (hlen.trans hC))) (hs hC)

theorem init_inv (cs : List Call) (sched : List Choice) :
    ((Conc.init cs).run sched).calls.Perm cs ∧
    ((Conc.init cs).run sched).keys.Perm
      ((List.range ((Conc.init cs).run sched).count).map counterKey) ∧
    (cs.length ≤ 2 ^ 32 →
      ((Conc.init cs).run sched).srv.get.Perm
        (((Conc.init cs).run sched).returned.map Held.item)) := by
  apply run_inv cs sched (Conc.init cs)
  · simp [Conc.init, Conc.calls]
  · simp [Conc.init, Conc.count, New]
  · simp [Conc.init, Conc.count, Conc.keys]
  · intro _
    simp [Conc.init, New, Server.get]

theorem sequential_complete (m : Nat) :
    ∀ c : Conc, c.allocated = [] → c.pending.length = m →
      (c.run (sequential m)).pending = [] ∧ (c.run (sequential m)).allocated = [] := by
  induction m with
  | zero =>
    intro c ha hl
    exact ⟨List.length_eq_zero.mp hl, ha⟩
  | succ m ih =>
    intro c ha hl
    obtain ⟨call, rest, hp⟩ := List.exists_cons_of_length_eq_add_one hl
    have hrun : c.run (sequential (m + 1)) =
        ((c.step (.alloc 0)).step (.insert 0)).run (sequential m) := rfl
    rw [hrun]
    apply ih
    · simp [Conc.step, pick, hp, ha]
    · have : rest.length = m := by simpa [hp] using hl
      simpa [Conc.step, pick, hp, ha] using this

theorem sequential_complete_init (cs : List Call) :
    ((Conc.init cs).run (sequential cs.length)).pending = [] ∧
    ((Conc.init cs).run (sequential cs.length)).allocated = [] :=
  sequential_complete cs.length (Conc.init cs) rfl rfl

/-- More than `2 ^ 32` completed calls cannot all hold distinct ids. -/
theorem completed_keys_collide (cs : List Call) (sched : List Choice)
    (hC : 2 ^ 32 < cs.length)
    (hp : ((Conc.init cs).run sched).pending = [])
    (ha : ((Conc.init cs).run sched).allocated = []) :
    ¬ (((Conc.init cs).run sched).returned.map Held.id).Nodup := by
  obtain ⟨hcalls, hkeys, -⟩ := init_inv cs sched
  have hcount : ((Conc.init cs).run sched).count = cs.length := by
    have := hcalls.length_eq
    rw [calls_length, hp] at this
    simpa using this
  have hk : ((Conc.init cs).run sched).keys =
      ((Conc.init cs).run sched).returned.map Held.id := by
    simp [Conc.keys, ha]
  rw [← hk, hkeys.nodup_iff, hcount]
  intro hnd
  have h0 : 0 ∈ List.range cs.length := List.mem_range.mpr (by omega)
  have h1 : 2 ^ 32 ∈ List.range cs.length := List.mem_range.mpr hC
  have := List.inj_on_of_nodup_map hnd h0 h1 (by simp [counterKey])
  omega

/-- C14, as stated for every number of calls, fails once the 32-bit counter
wraps: `2 ^ 32 + 1` calls of `add` launched on the state built by `New` and run
to completion one after the other all return, and two of them return the same
key. -/
theorem concurrent_creates_wrap :
    ((Conc.init ((List.range (2 ^ 32 + 1)).map fun t => Call.mk t "")).run
      (sequential (2 ^ 32 + 1))).pending = [] ∧
    ((Conc.init ((List.range (2 ^ 32 + 1)).map fun t => Call.mk t "")).run
      (sequential (2 ^ 32 + 1))).allocated = [] ∧
    ¬ (((Conc.init ((List.range (2 ^ 32 + 1)).map fun t => Call.mk t "")).run
      (sequential (2 ^ 32 + 1))).returned.map Held.id).Nodup := by
  have hlen : ((List.range (2 ^ 32 + 1)).map fun t => Call.mk t "").length = 2 ^ 32 + 1 := by
    rw [List.length_map, List.length_range]
  have hc := sequential_complete_init ((List.range (2 ^ 32 + 1)).map fun t => Call.mk t "")
  rw [hlen] at hc
  exact ⟨hc.1, hc.2, completed_keys_collide _ _ (by rw [hlen]; omega) hc.1 hc.2⟩

/-- C14 (concurrent creates), amended.  Let at most `2 ^ 32` calls of `add`
be launched on the state built by `New`, each call being two atomic steps (the
counter increment, then the insertion under the lock), and let the steps of
the calls be interleaved in any way.  Once every call has returned, the
returned keys are pairwise distinct, every launched call has returned exactly
once, and the list that `get` then returns holds exactly one record per call,
made of the key the call returned and the value the call passed. -/
theorem concurrent_creates (cs : List Call) (sched : List Choice)
    (hC : cs.length ≤ 2 ^ 32)
    (hp : ((Conc.init cs).run sched).pending = [])
    (ha : ((Conc.init cs).run sched).allocated = []) :
    (((Conc.init cs).run sched).returned.map Held.id).Nodup ∧
    (((Conc.init cs).run sched).returned.map Held.call).Perm cs ∧
    ((Conc.init cs).run sched).srv.get.Perm
      (((Conc.init cs).run sched).returned.map Held.item) ∧
    ((Conc.init cs).run sched).srv.get.length = cs.length := by
  obtain ⟨hcalls, hkeys, hstore⟩ := init_inv cs sched
  have hcount : ((Conc.init cs).run sched).count = cs.length := by
    have := hcalls.length_eq
    rw [calls_length, hp] at this
    simpa using this
  have hk : ((Conc.init cs).run sched).keys =
      ((Conc.init cs).run sched).returned.map Held.id := by
    simp [Conc.keys, ha]
  have hcl : ((Conc.init cs).run sched).calls =
      ((Conc.init cs).run sched).returned.map Held.call := by
    simp [Conc.calls, hp, ha]
  refine ⟨?_, ?_, hstore hC, ?_⟩
  · rw [← hk, hkeys.nodup_iff]
    exact counterKey_nodup _ (by rw [hcount]; exact hC)
  · rw [← hcl]
    exact hcalls
  · rw [(hstore hC).length_eq, List.length_map, ← hcount]
    simp [Conc.count, ha]

theorem concurrent_creates_witness :
    [Call.mk 0 "a", Call.mk 1 "b", Call.mk 2 "c"].length ≤ 2 ^ 32 ∧
    ((Conc.init [⟨0, "a"⟩, ⟨1, "b"⟩, ⟨2, "c"⟩]).run
      [.alloc 1, .alloc 1, .insert 0, .alloc 0, .insert 1, .insert 0]).pending = [] ∧
    ((Conc.init [⟨0, "a"⟩, ⟨1, "b"⟩, ⟨2, "c"⟩]).run
      [.alloc 1, .alloc 1, .insert 0, .alloc 0, .insert 1, .insert 0]).allocated = [] ∧
    ((Conc.init [⟨0, "a"⟩, ⟨1, "b"⟩, ⟨2, "c"⟩]).run
      [.alloc 1, .alloc 1, .insert 0, .alloc 0, .insert 1, .insert 0]).srv.get.Perm
      [⟨1, "b"⟩, ⟨2, "c"⟩, ⟨3, "a"⟩] ∧
    ((Conc.init [⟨0, "a"⟩, ⟨1, "b"⟩, ⟨2, "c"⟩]).run
      [.alloc 1, .alloc 1, .insert 0, .alloc 0, .insert 1, .insert 0]).srv.get.length = 3 :=
  ⟨by decide, by decide, by decide, by decide,
    (concurrent_creates [⟨0, "a"⟩, ⟨1, "b"⟩, ⟨2, "c"⟩]
      [.alloc 1, .alloc 1, .insert 0, .alloc 0, .insert 1, .insert 0]
      (by decide) (by decide) (by decide)).2.2.2⟩

/-! ## Reachable states -/

theorem run_append (a b : List Request) (s : Server) :
    run s (a ++ b) = run (run s a) b := by
  induction a generalizing s with
  | nil => rfl
  | cons r rs ih => exact ih (s.dispatch r).1

theorem run_id (reqs : List Request) (s : Server) (hs : s.id < 2 ^ 32) :
    (run s reqs).id = (s.id + (createdKeys s reqs).length) % 2 ^ 32 := by
  induction reqs generalizing s with
  | nil =>
    simp only [run, createdKeys, List.length_nil, Nat.add_zero]
    exact (Nat.mod_eq_of_lt hs).symm
  | cons r rs ih =>
    rcases dispatch_cases s r with ⟨hk, hid, -⟩ | ⟨hk, hid, -⟩
    · have hc : createdKeys s (r :: rs) = createdKeys (s.dispatch r).1 rs := by
        simp [createdKeys, hk]
      have := ih (s.dispatch r).1 (by rw [hid]; exact hs)
      rw [hc, ← hid]
      exact this
    · have hc : createdKeys s (r :: rs) =
          atomicAdd1 s.id :: createdKeys (s.dispatch r).1 rs := by
        simp [createdKeys, hk]
      have hlt : atomicAdd1 s.id < 2 ^ 32 := Nat.mod_lt _ (by norm_num)
      have := ih (s.dispatch r).1 (by rw [hid]; exact hlt)
      rw [hc, List.length_cons]
      show (run (s.dispatch r).1 rs).id = _
      rw [this, hid]
      simp only [atomicAdd1]
      omega

/-- In a state reached from `New` with fewer than `2 ^ 32` successful creates,
the counter is the number of creates and every key of the map lies between 1
and the counter. -/
theorem reachable_bounds (reqs : List Request)
    (h : (createdKeys New reqs).length < 2 ^ 32) :
    (run New reqs).id = (createdKeys New reqs).length ∧
    ∀ k : Nat, k ∈ (run New reqs).strs → 1 ≤ k ∧ k ≤ (createdKeys New reqs).length := by
  constructor
  · rw [run_id reqs New (by simp [New])]
    simp only [New, Nat.zero_add]
    exact Nat.mod_eq_of_lt h
  · intro k hk
    rcases mem_run_strs reqs New k hk with h1 | h1
    · exact absurd h1 (AList.not_mem_empty k)
    · rw [createdKeys_eq] at h1
      obtain ⟨i, hi, rfl⟩ := List.mem_map.mp h1
      have hi1 := List.mem_range.mp hi
      have h0 : New.id = 0 := rfl
      simp only [h0]
      rw [Nat.mod_eq_of_lt (by omega)]
      omega

theorem add_fresh (s : Server) (m : String) (k0 : Nat) (v : String)
    (hf : atomicAdd1 s.id ∉ s.strs) :
    (s.add ⟨m, .object k0 v⟩).1.get = ⟨atomicAdd1 s.id, v⟩ :: s.get := by
  rw [add_object]
  simp only [Server.get, AList.insert_entries_of_neg hf, List.map_cons]

/-- C16 (create never overwrites).  In every state reached from the one built
by `New` by requests of which fewer than `2 ^ 32` are successful creates, the
key the next `add` returns is absent from the map before the insertion; the
list returned by `get` after the `add` is one record longer, keeps every
record it held before, and holds nothing else but the created record. -/
theorem create_never_overwrites (reqs : List Request) (m : String) (k0 : Nat) (v : String)
    (h : (createdKeys New reqs).length < 2 ^ 32) :
    ((run New reqs).add ⟨m, .object k0 v⟩).2.1.Key ∉ (run New reqs).strs ∧
    ((run New reqs).add ⟨m, .object k0 v⟩).1.get.length = (run New reqs).get.length + 1 ∧
    (∀ x ∈ (run New reqs).get, x ∈ ((run New reqs).add ⟨m, .object k0 v⟩).1.get) ∧
    (∀ x ∈ ((run New reqs).add ⟨m, .object k0 v⟩).1.get,
      x = ((run New reqs).add ⟨m, .object k0 v⟩).2.1 ∨ x ∈ (run New reqs).get) := by
  obtain ⟨hid, hb⟩ := reachable_bounds reqs h
  have hf : atomicAdd1 (run New reqs).id ∉ (run New reqs).strs := by
    intro hmem
    have := hb _ hmem
    simp only [atomicAdd1, hid] at this
    omega
  have hg := add_fresh (run New reqs) m k0 v hf
  refine ⟨hf, ?_, ?_, ?_⟩
  · rw [hg, List.length_cons]
  · intro x hx
    rw [hg]
    exact List.mem_cons_of_mem _ hx
  · intro x hx
    rw [hg] at hx
    rcases List.mem_cons.mp hx with rfl | h1
    · exact Or.inl rfl
    · exact Or.inr h1

theorem create_never_overwrites_witness :
    (createdKeys New [POST "a", POST "b", DELETE 1]).length < 2 ^ 32 ∧
    ((run New [POST "a", POST "b", DELETE 1]).add (POST "c")).2.1.Key ∉
      (run New [POST "a", POST "b", DELETE 1]).strs ∧
    ((run New [POST "a", POST "b", DELETE 1]).add (POST "c")).1.get.length =
      (run New [POST "a", POST "b", DELETE 1]).get.length + 1 :=
  ⟨by decide,
    (create_never_overwrites [POST "a", POST "b", DELETE 1] "POST" 0 "c" (by decide)).1,
    (create_never_overwrites [POST "a", POST "b", DELETE 1] "POST" 0 "c" (by decide)).2.1⟩

theorem step_keysBounded (s : Server) (r : Request) (hb : keysBounded s)
    (hr : createdKey r (s.dispatch r) = none ∨ s.id + 1 < 2 ^ 32) :
    keysBounded (s.dispatch r).1 := by
  intro k hk
  rw [← AList.mem_keys] at hk
  rcases dispatch_cases s r with ⟨-, hid, hm⟩ | ⟨hc, hid, hm⟩
  · rw [hid]
    exact hb k (AList.mem_keys.mp (hm k hk))
  · have hlt : s.id + 1 < 2 ^ 32 := by
      rcases hr with h1 | h1
      · rw [hc] at h1
        exact absurd h1 (by simp)
      · exact h1
    have hnew : atomicAdd1 s.id = s.id + 1 := Nat.mod_eq_of_lt hlt
    rw [hid, hnew]
    rcases hm k hk with rfl | h2
    · rw [hnew]
      omega
    · have := hb k (AList.mem_keys.mp h2)
      omega

/-- C17, as stated, fails at the last state of its scope.  The state reached
from `New` by `2 ^ 32 - 1` creates is reached with fewer than `2 ^ 32`
successful creates and has every key of its map between 1 and the counter;
one more successful POST wraps the counter to 0 and stores key 0, so the
property does not hold after it. -/
theorem keys_bounded_wrap :
    (createdKeys New (List.replicate (2 ^ 32 - 1) (POST ""))).length < 2 ^ 32 ∧
    keysBounded (run New (List.replicate (2 ^ 32 - 1) (POST ""))) ∧
    createdKey (POST "") ((run New (List.replicate (2 ^ 32 - 1) (POST ""))).dispatch (POST ""))
      = some 0 ∧
    ((run New (List.replicate (2 ^ 32 - 1) (POST ""))).dispatch (POST "")).1.id = 0 ∧
    0 ∈ ((run New (List.replicate (2 ^ 32 - 1) (POST ""))).dispatch (POST "")).1.strs ∧
    ¬ keysBounded ((run New (List.replicate (2 ^ 32 - 1) (POST ""))).dispatch (POST "")).1 := by
  have hlen : (createdKeys New (List.replicate (2 ^ 32 - 1) (POST ""))).length = 2 ^ 32 - 1 :=
    createdKeys_replicate_length _ _ _
  have hlt : (createdKeys New (List.replicate (2 ^ 32 - 1) (POST ""))).length < 2 ^ 32 := by
    rw [hlen]
    norm_num
  obtain ⟨hid, hb⟩ := reachable_bounds _ hlt
  rw [hlen] at hid
  have hPG : ("POST" : String) ≠ "GET" := by decide
  generalize run New (List.replicate (2 ^ 32 - 1) (POST "")) = s at hid hb ⊢
  have hnew : atomicAdd1 s.id = 0 := by
    rw [hid]
    simp [atomicAdd1]
  have hd : s.dispatch (POST "") = (⟨0, s.strs.insert 0 ""⟩, .item ⟨0, ""⟩, none) := by
    show s.dispatch ⟨"POST", .object 0 ""⟩ = _
    rw [dispatch_POST, add_object, hnew]
  have hmem : 0 ∈ (s.dispatch (POST "")).1.strs := by
    rw [hd]
    exact (AList.mem_insert _).mpr (Or.inl rfl)
  refine ⟨hlt, ?_, ?_, ?_, hmem, ?_⟩
  · intro k hk
    have := hb k (AList.mem_keys.mpr hk)
    rw [hid]
    omega
  · rw [hd]
    simp [createdKey, POST]
  · rw [hd]
  · intro hkb
    have := hkb 0 (AList.mem_keys.mp hmem)
    omega

/-- C17 (stored keys are bounded by the counter), amended.  In every state
reached from the one built by `New` by requests of which fewer than `2 ^ 32`
are successful creates, every key of the map lies between 1 and the counter,
so key 0 is not in the map; serving one more request of any method, successful or not, keeps
this so as long as the requests served, that one included, still hold fewer
than `2 ^ 32` successful creates.  From any state with this property, a
request that is not a successful create keeps it, and so does a successful
create that does not wrap the counter. -/
theorem keys_bounded_by_counter (reqs : List Request)
    (h : (createdKeys New reqs).length < 2 ^ 32) :
    keysBounded (run New reqs) ∧
    0 ∉ (run New reqs).strs ∧
    (∀ r : Request, (createdKeys New (reqs ++ [r])).length < 2 ^ 32 →
      keysBounded ((run New reqs).dispatch r).1) ∧
    (∀ (s : Server) (r : Request), keysBounded s →
      (createdKey r (s.dispatch r) = none ∨ s.id + 1 < 2 ^ 32) →
      keysBounded (s.dispatch r).1) := by
  have main : ∀ l : List Request, (createdKeys New l).length < 2 ^ 32 →
      keysBounded (run New l) := by
    intro l hl k hk
    obtain ⟨hid, hb⟩ := reachable_bounds l hl
    rw [hid]
    exact hb k (AList.mem_keys.mpr hk)
  refine ⟨main reqs h, ?_, ?_, step_keysBounded⟩
  · intro h0
    have := (reachable_bounds reqs h).2 0 h0
    omega
  · intro r hr
    have := main (reqs ++ [r]) hr
    rw [run_append] at this
    exact this

theorem keys_bounded_by_counter_witness :
    (createdKeys New [POST "a", POST "b", DELETE 1]).length < 2 ^ 32 ∧
    keysBounded (run New [POST "a", POST "b", DELETE 1]) ∧
    0 ∉ (run New [POST "a", POST "b", DELETE 1]).strs :=
  ⟨by decide,
    (keys_bounded_by_counter [POST "a", POST "b", DELETE 1] (by decide)).1,
    (keys_bounded_by_counter [POST "a", POST "b", DELETE 1] (by decide)).2.1⟩

end http_server
